import Mathlib

/-!
Shallow embedding of the concurrency-limited, retryable remote-asset
fetch-and-materialize pipeline of `packages/teams-agent/src/util.ts`:
`sendRequestWithRetry`, `sendRequestWithTimeout`, `getSampleFileInfo`,
the destination-path computations of `downloadSampleFiles` and
`buildFileTree`, `fileTreeAdd`, and `runWithLimitedConcurrency`.

Asynchrony is embedded by determinizing over explicit data: the outcome
of each attempt or callback is an input, and where the event loop would
nondeterministically pick which pending promise settles first, an explicit
schedule (a list of indices) makes the pick. Machine numbers (HTTP status
codes, `tryLimits`) are `Int`; JavaScript `undefined` is `Option.none`.
-/

namespace TeamsFxSpec

/-! ## sendRequestWithRetry (util.ts lines 32-60) -/

/-- An axios response: a status code plus a body. The body field keeps
distinct responses distinguishable. -/
structure Response (α : Type) where
  status : Int
  body : α
deriving DecidableEq, Repr

/-- A thrown exception, as observed by the retry loop: the optional
`e?.response?.status`, whether `axios.isCancel(e)` holds, and a code that
keeps distinct exceptions distinguishable. -/

structure ExnVal where
  status : Option Int
  cancelFlag : Bool
  code : Nat
deriving DecidableEq, Repr

/-- The outcome of one attempt of `requestFn`: a fulfilled response or a
thrown exception. -/

inductive AttemptRes (α : Type) where
  | res (r : Response α)
  | exn (e : ExnVal)
deriving DecidableEq, Repr

/-- The errors `sendRequestWithRetry` can throw: the `HTTP Request failed`
error built from a non-success response, a re-thrown exception, or the
`RequestWithRetry got bad tryLimits` error. -/

inductive ReqError (α : Type) where
  | httpError (r : Response α)
  | thrown (e : ExnVal)
  | badTryLimits (tl : Int)
deriving DecidableEq, Repr

/-- `const canTry = (status) => !status || (status >= 500 && status < 600)`.
JavaScript `!status` is true for `undefined` and for the number `0`, so
both are retryable here. -/

def canTry : Option Int → Bool
  | none => true
  | some s => s == 0 || (decide (500 ≤ s) && decide (s < 600))

/-- The status the loop records after an attempt: `res.status` for a
fulfilled response, `e?.response?.status` for a thrown exception. -/

def statusAfter {α : Type} : AttemptRes α → Option Int
  | .res r => some r.status
  | .exn e => e.status

/-- The retry loop of `sendRequestWithRetry`, instrumented with the number
of attempts performed. `fuel` is the remaining iteration budget
(`tryLimits - i`), `i` the index of the next attempt, `status` and `err`
the loop variables `status` and `error` (`none` = `undefined`/unassigned).
Returns the settled result together with the count of attempts made from
this point on. -/

def retryGo {α : Type} (f : Nat → AttemptRes α) (tl : Int) :
    Nat → Nat → Option Int → Option (ReqError α) →
    Except (ReqError α) (Response α) × Nat
  | 0, _, _, err => (.error (err.getD (.badTryLimits tl)), 0)
  | fuel + 1, i, status, err =>
    if canTry status then
      match f i with
      | .res r =>
        if r.status == 200 || r.status == 201 then (.ok r, 1)
        else
          let rec2 := retryGo f tl fuel (i + 1) (some r.status) (some (.httpError r))
          (rec2.1, rec2.2 + 1)
      | .exn e =>
        let rec2 := retryGo f tl fuel (i + 1) e.status (some (.thrown e))
        (rec2.1, rec2.2 + 1)
    else (.error (err.getD (.badTryLimits tl)), 0)

/-- `sendRequestWithRetry(requestFn, tryLimits)`, instrumented with the
attempt count. Attempt `i` of `requestFn` yields `f i`. The loop runs
while `i < tryLimits && canTry(status)`; the fuel `tl.toNat` realizes the
`i < tryLimits` bound, which admits no iteration when `tryLimits <= 0`. -/

def sendRequestWithRetryI {α : Type} (f : Nat → AttemptRes α) (tl : Int) :
    Except (ReqError α) (Response α) × Nat :=
  retryGo f tl tl.toNat 0 none none

/-- The settled result of `sendRequestWithRetry(requestFn, tryLimits)`. -/

def sendRequestWithRetry {α : Type} (f : Nat → AttemptRes α) (tl : Int) :
    Except (ReqError α) (Response α) :=
  (sendRequestWithRetryI f tl).1

/-- How many times `sendRequestWithRetry` invoked `requestFn`. -/

def attemptsUsed {α : Type} (f : Nat → AttemptRes α) (tl : Int) : Nat :=
  (sendRequestWithRetryI f tl).2

/-- Attempt sequence refuting claim C3 as stated: attempt 0 fulfills with
status 0 (falsy in JavaScript, hence retryable by `canTry`), attempt 1
fulfills with status 200. -/
def cexC3 : Nat → AttemptRes Nat
  | 0 => .res ⟨0, 0⟩
  | _ => .res ⟨200, 1⟩

/-- An attempt sequence where every attempt fulfills with status 404. -/

def f404c : Nat → AttemptRes Nat := fun _ => .res ⟨404, 7⟩

/-- `axios.isCancel(err)` on the errors `sendRequestWithRetry` throws:
only a re-thrown exception can be a cancellation; the HTTP-failure error
and the bad-tryLimits error are ordinary `Error`s. -/
def isCancelErr {α : Type} : ReqError α → Bool
  | .thrown e => e.cancelFlag
  | _ => false

/-- The settled outcome of `sendRequestWithTimeout`: the retried response,
the `new Error("Request timeout")` thrown when the caught error was a
cancellation, or the caught error re-thrown unchanged. -/

inductive TimeoutResult (α : Type) where
  | ok (r : Response α)
  | timeoutErr
  | failed (e : ReqError α)
deriving DecidableEq, Repr

/-- `sendRequestWithTimeout(requestFn, timeoutInMs, tryLimits)`,
instrumented with whether `clearTimeout` ran. `requestFn` is a function
of the cancel token and the attempt index; the single token `tk` of the
one `CancelToken.source()` the function creates is the token passed to
every retried attempt (`() => requestFn(source.token)`). A fired deadline
surfaces, cooperatively, as the retried operation rejecting with an
exception whose `cancelFlag` is set. `clearTimeout` runs only on the
success path of the `try` block; the `catch` path re-throws without
clearing the timer. -/

def sendRequestWithTimeoutI {α : Type} (requestFn : Nat → Nat → AttemptRes α)
    (tk : Nat) (tl : Int) : TimeoutResult α × Bool :=
  match sendRequestWithRetry (fun i => requestFn tk i) tl with
  | .ok r => (.ok r, true)
  | .error e => (if isCancelErr e then .timeoutErr else .failed e, false)

/-- The settled outcome of `sendRequestWithTimeout`. -/

def sendRequestWithTimeout {α : Type} (requestFn : Nat → Nat → AttemptRes α)
    (tk : Nat) (tl : Int) : TimeoutResult α :=
  (sendRequestWithTimeoutI requestFn tk tl).1

/-- Whether the `setTimeout` timer was cancelled (`clearTimeout`) by the
time `sendRequestWithTimeout` settled. -/

def timerCleared {α : Type} (requestFn : Nat → Nat → AttemptRes α)
    (tk : Nat) (tl : Int) : Bool :=
  (sendRequestWithTimeoutI requestFn tk tl).2

/-- The requestFn used as C6/C7 failing input: every attempt throws a
non-cancellation exception (for example a DNS failure), settling before
the deadline fires. -/
def cexC6 : Nat → Nat → AttemptRes Nat := fun _ _ => .exn ⟨none, false, 42⟩

/-- The requestFn whose attempts observe the fired deadline: every attempt
rejects with a cancellation. -/

def cancelFn : Nat → Nat → AttemptRes Nat := fun _ _ => .exn ⟨none, true, 1⟩

/-- JavaScript `str.split(sep)` for a one-character separator, working on
the character list: always returns a nonempty list of chunks. -/
def splitCharAux (c : Char) : List Char → List (List Char)
  | [] => [[]]
  | x :: xs =>
    match splitCharAux c xs with
    | [] => [[x]]
    | y :: ys => if x = c then [] :: y :: ys else (x :: y) :: ys

/-- JavaScript `str.split(sep)` for a one-character separator. -/

def splitOnChar (c : Char) (s : String) : List String :=
  (splitCharAux c s.data).map (fun l => ⟨l⟩)

/-- `path.basename` for the slash-separated relative paths used here
(no trailing separator): the last component. -/

def basename (p : String) : String :=
  ((splitOnChar '/' p).getLast?).getD ""

/-- `path.dirname` for the slash-separated relative paths used here: all
but the last component, `"."` when the path has a single component. -/

def dirname (p : String) : String :=
  match (splitOnChar '/' p).dropLast with
  | [] => "."
  | parts => String.intercalate "/" parts

/-- The normalized segments of a relative path: the slash-separated
components with empty and `"."` components dropped (the paths handled by
the downloader contain no `".."`). -/

def pathSegments (p : String) : List String :=
  (splitOnChar '/' p).filter (fun s => s != "" && s != ".")

/-- Length of the longest common prefix of two segment lists. -/

def commonLen : List String → List String → Nat
  | x :: xs, y :: ys => if x == y then commonLen xs ys + 1 else 0
  | _, _ => 0

/-- `path.relative(base, target)` for relative slash-separated paths with
no `".."` input segments: drop the common leading segments, then go up
once per remaining base segment and down the remaining target segments. -/

def relativeModel (base target : String) : String :=
  let b := pathSegments base
  let t := pathSegments target
  let c := commonLen b t
  String.intercalate "/" (List.replicate (b.length - c) ".." ++ t.drop c)

/-- `path.join(a, b)` for relative slash-separated paths: concatenate the
segments with a single separator. -/

def joinModel (a b : String) : String :=
  String.intercalate "/" (pathSegments a ++ pathSegments b)

/-- Destination path computed by `downloadSampleFiles` (util.ts lines
104-107): `path.join(dstPath, path.relative(relativePath + "/", samplePath))`. -/

def downloadDestPath (dstPath relativePath samplePath : String) : String :=
  joinModel dstPath (relativeModel (relativePath ++ "/") samplePath)

/-- Destination path computed by `buildFileTree` (util.ts line 137):
`path.join(dstPath, samplePath)` — the full remote path, not re-rooted. -/

def buildFileTreeDestPath (dstPath samplePath : String) : String :=
  joinModel dstPath samplePath

/-! ## fileTreeAdd and the tree accumulation of buildFileTree
(util.ts lines 118-178) -/

/-- `vscode.ChatResponseFileTree`: a name plus an optional children list.
Absent children (`none`) is a file leaf; present children is a directory. -/

inductive FileTree where
  | mk (name : String) (children : Option (List FileTree))

/-- The `name` field of a tree node. -/

def FileTree.name : FileTree → String
  | .mk n _ => n

/-- The optional `children` field of a tree node. -/

def FileTree.children : FileTree → Option (List FileTree)
  | .mk _ c => c

/-- Whether a node is a directory (has a children list). -/

def FileTree.isDir : FileTree → Bool
  | .mk _ (some _) => true
  | .mk _ none => false

/-- Replace the first child whose name matches `s` by `v`; the in-place
mutation of the child found by `children?.find` in `fileTreeAdd`. -/

def replaceFirst : List FileTree → String → FileTree → List FileTree
  | [], _, _ => []
  | c :: cs, s, v => if c.name == s then v :: cs else c :: replaceFirst cs s v

/-- The segment walk of `fileTreeAdd`: walk the directory segments from
the current node, skipping `"."`, descending into the first child whose
name matches the segment (`children?.find`), pushing a fresh directory
node otherwise, and finally pushing a leaf named `filename`. When the
current node is a leaf (`children` is `undefined`), `find` yields
`undefined` and both `children?.push` calls are no-ops, so the fresh
nodes are built detached and the tree is left unchanged. -/

def addSegs : List String → FileTree → String → FileTree
  | [], t, filename =>
    match t with
    | .mk n none => .mk n none
    | .mk n (some l) => .mk n (some (l ++ [.mk filename none]))
  | s :: rest, t, filename =>
    if s = "." then addSegs rest t filename
    else
      match t with
      | .mk n none => .mk n none
      | .mk n (some l) =>
        match l.find? (fun c => c.name == s) with
        | some c => .mk n (some (replaceFirst l s (addSegs rest c filename)))
        | none => .mk n (some (l ++ [addSegs rest (.mk s (some [])) filename]))

/-- `fileTreeAdd(root, relativePath, filePath)`: split the directory part
of `relativePath` on the platform separator (posix here) and walk; the
`filePath` argument is unused by the source function. -/

def fileTreeAdd (root : FileTree) (relativePath : String) : FileTree :=
  addSegs (splitOnChar '/' (dirname relativePath)) root (basename relativePath)

/-- The pure tree accumulation of `buildFileTree`: starting from the root
node named `relativeFolderName` with empty children, each completing
download inserts `path.relative(relativeFolderName + "/", samplePath)`,
in completion order; the function returns `root.children ?? []`. -/

def buildFileTree (relativeFolderName : String) (completedOrder : List String) :
    List FileTree :=
  ((completedOrder.foldl
      (fun r p => fileTreeAdd r (relativeModel (relativeFolderName ++ "/") p))
      (.mk relativeFolderName (some []))).children).getD []

/-- The names of a list of sibling nodes, in order. -/

def childNames (l : List FileTree) : List String :=
  l.map FileTree.name

/-- The names of the directory children of a sibling list. -/

def dirNames (l : List FileTree) : List String :=
  (l.filter FileTree.isDir).map FileTree.name

/-- Well-formedness preserved by insertions: at every node, no two
directory children share a name (leaves may repeat). -/

inductive WF : FileTree → Prop
  | leaf (n : String) : WF (.mk n none)
  | dir (n : String) (l : List FileTree) (hnd : (dirNames l).Nodup)
      (hall : ∀ c ∈ l, WF c) : WF (.mk n (some l))

/-- One entry of the recursive listing: its path and its type
(blob or tree). -/
structure TreeEntry where
  path : String
  type : String
deriving DecidableEq, Repr

/-- The listing response body `data as SampleFileInfo`: both fields may be
absent at run time. -/

structure SampleFileInfoData where
  tree : Option (List TreeEntry)
  sha : Option String
deriving DecidableEq, Repr

/-- JavaScript template-literal rendering of a possibly-undefined string:
`undefined` interpolates as the literal text "undefined". -/

def jsStr : Option String → String
  | some s => s
  | none => "undefined"

/-- JavaScript `str.startsWith(pre)`. -/

def jsStartsWith (s pre : String) : Bool :=
  pre.data.isPrefixOf s.data

/-- `getSampleFileInfo` after the listing request succeeded, computing
`samplePaths = fileInfo?.tree?.filter(node => node.path.startsWith(dir +
"/") && node.type !== "tree").map(node => node.path)` and `fileUrlPrefix`
interpolating `fileInfo?.sha`. -/

def getSampleFileInfo (owner repo dir : String)
    (data : Option SampleFileInfoData) : Option (List String) × String :=
  ((data.bind SampleFileInfoData.tree).map (fun l =>
      (l.filter (fun node =>
        jsStartsWith node.path (dir ++ "/") && node.type != "tree")).map
        TreeEntry.path),
    "https://raw.githubusercontent.com/" ++ owner ++ "/" ++ repo ++ "/" ++
      jsStr (data.bind SampleFileInfoData.sha) ++ "/")

/-- Abstract state of a run: items not yet dispatched, callbacks started
and not yet settled, and whether the loop is suspended in
`await Promise.race(queue)`. -/
structure LimiterState where
  pending : Nat
  inFlight : Nat
  waiting : Bool
deriving DecidableEq, Repr

/-- One scheduler step with concurrency limit `L`: `dispatch` fires the
callback for the next item and pushes its promise, suspending in the race
exactly when the queue has reached the limit (the single `if` of the
loop); `settle` is one in-flight operation settling, which resumes a
suspended race. The loop can only dispatch while not suspended. -/

inductive LimiterStep (L : Nat) : LimiterState → LimiterState → Prop
  | dispatch (p i : Nat) :
      LimiterStep L ⟨p + 1, i, false⟩ ⟨p, i + 1, decide (L ≤ i + 1)⟩
  | settle (p i : Nat) (w : Bool) :
      LimiterStep L ⟨p, i + 1, w⟩ ⟨p, i, false⟩

/-- States reachable from the start of a run over `M` items. -/

inductive LimiterReach (L M : Nat) : LimiterState → Prop
  | init : LimiterReach L M ⟨M, 0, false⟩
  | step {s s2 : LimiterState} : LimiterReach L M s → LimiterStep L s s2 →
      LimiterReach L M s2

/-- The schedule pick at a suspension point: index into the current
queue. -/
def pickIdx (sched : List Nat) (n : Nat) : Nat :=
  sched.headD 0 % n

/-- The outcome of the queue entry the schedule settles first (`none`:
that callback fulfills; `some e`: it rejects with `e`). -/

def pickFrom {ε : Type} (q : List (Option ε)) (sched : List Nat) : Option ε :=
  q.getD (pickIdx sched q.length) none

/-- `await Promise.all(queue)`: the remaining in-flight operations settle
one at a time in schedule order; the first rejection rejects the join,
and the join resolves once the queue has emptied. The fuel equals the
queue length at every call, so the out-of-fuel branch is unreachable. -/

def joinGo {ε : Type} : Nat → List (Option ε) → List Nat → Except ε Unit
  | _, [], _ => .ok ()
  | 0, _ :: _, _ => .ok ()
  | fuel + 1, x :: xs, sched =>
    match pickFrom (x :: xs) sched with
    | some e => .error e
    | none =>
      joinGo fuel ((x :: xs).eraseIdx (pickIdx sched (x :: xs).length))
        (sched.drop 1)

/-- The dispatch loop: push the next callback promise onto the queue; if
the queue has reached the limit, suspend in `await Promise.race(queue)` —
a fulfilled winner has spliced itself out, a rejection rejects the whole
run — then continue; after the last item, `await Promise.all(queue)`. -/

def dispatchLC {ε : Type} (limit : Nat) :
    List (Option ε) → List (Option ε) → List Nat → Except ε Unit
  | [], queue, sched => joinGo queue.length queue sched
  | o :: rest, queue, sched =>
    if limit ≤ (queue ++ [o]).length then
      match pickFrom (queue ++ [o]) sched with
      | some e => .error e
      | none =>
        dispatchLC limit rest
          ((queue ++ [o]).eraseIdx (pickIdx sched (queue ++ [o]).length))
          (sched.drop 1)
    else dispatchLC limit rest (queue ++ [o]) sched

/-- `runWithLimitedConcurrency(items, callback, limit)`, determinized:
item `k` stands for its callback invocation, whose settlement is `none`
(fulfill) or `some e` (reject with `e`); `sched` picks which in-flight
promise settles at each suspension point. -/

def runWithLimitedConcurrency {ε : Type} (items : List (Option ε))
    (limit : Nat) (sched : List Nat) : Except ε Unit :=
  dispatchLC limit items [] sched

lemma status_503_not_success {α : Type} (b : α) :
    ((⟨503, b⟩ : Response α).status == 200 ||
      (⟨503, b⟩ : Response α).status == 201) = false := by
  show ((503 : Int) == 200 || (503 : Int) == 201) = false
  decide

lemma retryGo_stop {α : Type} (f : Nat → AttemptRes α) (tl : Int) (fuel i : Nat)
    (status : Option Int) (err : Option (ReqError α)) (h : canTry status = false) :
    retryGo f tl fuel i status err = (.error (err.getD (.badTryLimits tl)), 0) := by
  cases fuel <;> simp [retryGo, h]

lemma retryGo_step_ok {α : Type} {f : Nat → AttemptRes α} {tl : Int} {fuel i : Nat}
    {status : Option Int} {err : Option (ReqError α)} {r0 : Response α}
    (hc : canTry status = true) (hf : f i = .res r0)
    (hs : (r0.status == 200 || r0.status == 201) = true) :
    retryGo f tl (fuel + 1) i status err = (.ok r0, 1) := by
  simp [retryGo, hc, hf, hs]

lemma retryGo_step_res {α : Type} {f : Nat → AttemptRes α} {tl : Int} {fuel i : Nat}
    {status : Option Int} {err : Option (ReqError α)} {r0 : Response α}
    (hc : canTry status = true) (hf : f i = .res r0)
    (hs : (r0.status == 200 || r0.status == 201) = false) :
    retryGo f tl (fuel + 1) i status err =
      ((retryGo f tl fuel (i + 1) (some r0.status) (some (.httpError r0))).1,
        (retryGo f tl fuel (i + 1) (some r0.status) (some (.httpError r0))).2 + 1) := by
  simp [retryGo, hc, hf, hs]

lemma retryGo_step_exn {α : Type} {f : Nat → AttemptRes α} {tl : Int} {fuel i : Nat}
    {status : Option Int} {err : Option (ReqError α)} {e : ExnVal}
    (hc : canTry status = true) (hf : f i = .exn e) :
    retryGo f tl (fuel + 1) i status err =
      ((retryGo f tl fuel (i + 1) e.status (some (.thrown e))).1,
        (retryGo f tl fuel (i + 1) e.status (some (.thrown e))).2 + 1) := by
  simp [retryGo, hc, hf]

lemma retryGo_count_pos {α : Type} (f : Nat → AttemptRes α) (tl : Int) (fuel i : Nat)
    (status : Option Int) (err : Option (ReqError α))
    (h : 1 ≤ (retryGo f tl fuel i status err).2) : canTry status = true := by
  by_cases hc : canTry status = true
  · exact hc
  · rw [retryGo_stop f tl fuel i status err (Bool.not_eq_true _ ▸ hc)] at h
    simp at h

lemma retryGo_only_when {α : Type} (f : Nat → AttemptRes α) (tl : Int) :
    ∀ (fuel i : Nat) (status : Option Int) (err : Option (ReqError α)) (j : Nat),
      j + 2 ≤ (retryGo f tl fuel i status err).2 →
      canTry (statusAfter (f (i + j))) = true := by
  intro fuel
  induction fuel with
  | zero => intro i status err j h; simp [retryGo] at h
  | succ fuel ih =>
    intro i status err j h
    by_cases hc : canTry status = true
    · cases hf : f i with
      | res r0 =>
        by_cases hs : (r0.status == 200 || r0.status == 201) = true
        · rw [retryGo_step_ok hc hf hs] at h
          simp at h
        · rw [retryGo_step_res hc hf (Bool.not_eq_true _ ▸ hs)] at h
          simp only at h
          cases j with
          | zero =>
            have hct := retryGo_count_pos f tl fuel (i + 1) (some r0.status)
              (some (.httpError r0)) (by omega)
            simpa [hf, statusAfter] using hct
          | succ k =>
            have hk := ih (i + 1) (some r0.status) (some (.httpError r0)) k (by omega)
            have he : i + (k + 1) = (i + 1) + k := by omega
            rw [he]
            exact hk
      | exn e =>
        rw [retryGo_step_exn hc hf] at h
        simp only at h
        cases j with
        | zero =>
          have hct := retryGo_count_pos f tl fuel (i + 1) e.status
            (some (.thrown e)) (by omega)
          simpa [hf, statusAfter] using hct
        | succ k =>
          have hk := ih (i + 1) e.status (some (.thrown e)) k (by omega)
          have he : i + (k + 1) = (i + 1) + k := by omega
          rw [he]
          exact hk
    · rw [retryGo_stop f tl (fuel + 1) i status err (Bool.not_eq_true _ ▸ hc)] at h
      simp at h

lemma retryGo_fault_then_ok {α : Type} (f : Nat → AttemptRes α) (tl : Int) :
    ∀ (n i : Nat) (status : Option Int) (err : Option (ReqError α)) (r : Response α),
      canTry status = true →
      (∀ k, k < n → ∃ b, f (i + k) = AttemptRes.res ⟨503, b⟩) →
      f (i + n) = .res r → (r.status = 200 ∨ r.status = 201) →
      retryGo f tl (n + 1) i status err = (.ok r, n + 1) := by
  intro n
  induction n with
  | zero =>
    intro i status err r hct _h503 hr hs
    have hi : i + 0 = i := by omega
    rw [hi] at hr
    have hs2 : (r.status == 200 || r.status == 201) = true := by
      rcases hs with h | h <;> simp [h]
    exact retryGo_step_ok hct hr hs2
  | succ n ih =>
    intro i status err r hct h503 hr hs
    obtain ⟨b, hb⟩ := h503 0 (by omega)
    have hi : i + 0 = i := by omega
    rw [hi] at hb
    have hrec := ih (i + 1) (some (503 : Int))
      (some (.httpError ⟨503, b⟩)) r (by decide)
      (fun k hk => by
        have he : (i + 1) + k = i + (k + 1) := by omega
        rw [he]
        exact h503 (k + 1) (by omega))
      (by
        have he : (i + 1) + n = i + (n + 1) := by omega
        rw [he]
        exact hr) hs
    rw [retryGo_step_res hct hb (status_503_not_success b), hrec]

lemma retryGo_404_stops {α : Type} (f : Nat → AttemptRes α) (tl : Int) :
    ∀ (fuel i : Nat) (status : Option Int) (err : Option (ReqError α)) (j : Nat)
      (r : Response α),
      j < (retryGo f tl fuel i status err).2 →
      f (i + j) = .res r → r.status = 404 →
      (retryGo f tl fuel i status err).1 = .error (.httpError r) ∧
        (retryGo f tl fuel i status err).2 = j + 1 := by
  intro fuel
  induction fuel with
  | zero => intro i status err j r h _ _; simp [retryGo] at h
  | succ fuel ih =>
    intro i status err j r h hf h404
    by_cases hc : canTry status = true
    · cases hfi : f i with
      | res r0 =>
        by_cases hs : (r0.status == 200 || r0.status == 201) = true
        · rw [retryGo_step_ok hc hfi hs] at h ⊢
          simp only at h
          have hj : j = 0 := by omega
          rw [hj] at hf
          have hi : i + 0 = i := by omega
          rw [hi, hfi] at hf
          cases hf
          rw [h404] at hs
          simp at hs
        · rw [retryGo_step_res hc hfi (Bool.not_eq_true _ ▸ hs)] at h ⊢
          simp only at h ⊢
          cases j with
          | zero =>
            have hi : i + 0 = i := by omega
            rw [hi, hfi] at hf
            cases hf
            have hstop := retryGo_stop f tl fuel (i + 1) (some r.status)
              (some (.httpError r)) (by rw [h404]; decide)
            rw [hstop]
            simp
          | succ k =>
            have hrec := ih (i + 1) (some r0.status) (some (.httpError r0)) k r
              (by omega)
              (by
                have he : (i + 1) + k = i + (k + 1) := by omega
                rw [he]; exact hf) h404
            exact ⟨hrec.1, by omega⟩
      | exn e =>
        rw [retryGo_step_exn hc hfi] at h ⊢
        simp only at h ⊢
        cases j with
        | zero =>
          have hi : i + 0 = i := by omega
          rw [hi, hfi] at hf
          cases hf
        | succ k =>
          have hrec := ih (i + 1) e.status (some (.thrown e)) k r
            (by omega)
            (by
              have he : (i + 1) + k = i + (k + 1) := by omega
              rw [he]; exact hf) h404
          exact ⟨hrec.1, by omega⟩
    · rw [retryGo_stop f tl (fuel + 1) i status err (Bool.not_eq_true _ ▸ hc)] at h
      simp at h

lemma retryGo_ok_first {α : Type} (f : Nat → AttemptRes α) (tl : Int) :
    ∀ (fuel i : Nat) (status : Option Int) (err : Option (ReqError α)) (r : Response α),
      (retryGo f tl fuel i status err).1 = .ok r →
      ∃ j, (retryGo f tl fuel i status err).2 = j + 1 ∧ f (i + j) = .res r ∧
        (r.status = 200 ∨ r.status = 201) ∧
        ∀ k, k < j → ∀ r2, f (i + k) = .res r2 →
          ¬(r2.status = 200 ∨ r2.status = 201) := by
  intro fuel
  induction fuel with
  | zero => intro i status err r h; simp [retryGo] at h
  | succ fuel ih =>
    intro i status err r h
    by_cases hc : canTry status = true
    · cases hfi : f i with
      | res r0 =>
        by_cases hs : (r0.status == 200 || r0.status == 201) = true
        · rw [retryGo_step_ok hc hfi hs] at h ⊢
          simp only at h
          cases h
          refine ⟨0, rfl, by simpa using hfi, by simpa using hs, by omega⟩
        · rw [retryGo_step_res hc hfi (Bool.not_eq_true _ ▸ hs)] at h ⊢
          simp only at h ⊢
          obtain ⟨j, hcount, hfj, hstat, hfirst⟩ :=
            ih (i + 1) (some r0.status) (some (.httpError r0)) r h
          refine ⟨j + 1, by omega, ?_, hstat, ?_⟩
          · have he : i + (j + 1) = (i + 1) + j := by omega
            rw [he]; exact hfj
          · intro k hk r2 hr2
            cases k with
            | zero =>
              have hi : i + 0 = i := by omega
              rw [hi, hfi] at hr2
              cases hr2
              intro habs
              exact hs (by rcases habs with h2 | h2 <;> simp [h2])
            | succ k2 =>
              have he : i + (k2 + 1) = (i + 1) + k2 := by omega
              rw [he] at hr2
              exact hfirst k2 (by omega) r2 hr2
      | exn e =>
        rw [retryGo_step_exn hc hfi] at h ⊢
        simp only at h ⊢
        obtain ⟨j, hcount, hfj, hstat, hfirst⟩ :=
          ih (i + 1) e.status (some (.thrown e)) r h
        refine ⟨j + 1, by omega, ?_, hstat, ?_⟩
        · have he : i + (j + 1) = (i + 1) + j := by omega
          rw [he]; exact hfj
        · intro k hk r2 hr2
          cases k with
          | zero =>
            have hi : i + 0 = i := by omega
            rw [hi, hfi] at hr2
            cases hr2
          | succ k2 =>
            have he : i + (k2 + 1) = (i + 1) + k2 := by omega
            rw [he] at hr2
            exact hfirst k2 (by omega) r2 hr2
    · rw [retryGo_stop f tl (fuel + 1) i status err (Bool.not_eq_true _ ▸ hc)] at h
      simp at h

lemma retryGo_badTL {α : Type} (f : Nat → AttemptRes α) (tl : Int) :
    ∀ (fuel i : Nat) (status : Option Int) (err : Option (ReqError α)) (tlx : Int),
      (∀ ty : Int, err ≠ some (.badTryLimits ty)) →
      (retryGo f tl fuel i status err).1 = .error (.badTryLimits tlx) →
      err = none ∧ (retryGo f tl fuel i status err).2 = 0 := by
  intro fuel
  induction fuel with
  | zero =>
    intro i status err tlx herr h
    cases err with
    | none => exact ⟨rfl, rfl⟩
    | some e =>
      simp [retryGo] at h
      exact absurd (congrArg some h) (herr tlx)
  | succ fuel ih =>
    intro i status err tlx herr h
    by_cases hc : canTry status = true
    · cases hfi : f i with
      | res r0 =>
        by_cases hs : (r0.status == 200 || r0.status == 201) = true
        · rw [retryGo_step_ok hc hfi hs] at h
          simp at h
        · rw [retryGo_step_res hc hfi (Bool.not_eq_true _ ▸ hs)] at h
          simp only at h
          have := (ih (i + 1) (some r0.status) (some (.httpError r0)) tlx
            (by intro ty hty; cases hty) h).1
          cases this
      | exn e =>
        rw [retryGo_step_exn hc hfi] at h
        simp only at h
        have := (ih (i + 1) e.status (some (.thrown e)) tlx
          (by intro ty hty; cases hty) h).1
        cases this
    · have hstop := retryGo_stop f tl (fuel + 1) i status err (Bool.not_eq_true _ ▸ hc)
      rw [hstop] at h ⊢
      cases err with
      | none => exact ⟨rfl, rfl⟩
      | some e =>
        simp at h
        exact absurd (congrArg some h) (herr tlx)

lemma retryGo_pos_of_canTry {α : Type} (f : Nat → AttemptRes α) (tl : Int)
    (fuel i : Nat) (status : Option Int) (err : Option (ReqError α))
    (hc : canTry status = true) :
    1 ≤ (retryGo f tl (fuel + 1) i status err).2 := by
  cases hfi : f i with
  | res r0 =>
    by_cases hs : (r0.status == 200 || r0.status == 201) = true
    · rw [retryGo_step_ok hc hfi hs]
    · rw [retryGo_step_res hc hfi (Bool.not_eq_true _ ▸ hs)]
      simp
  | exn e =>
    rw [retryGo_step_exn hc hfi]
    simp

lemma retryGo_congr {α : Type} (f g : Nat → AttemptRes α) (tl : Int)
    (h : ∀ i, f i = g i) :
    ∀ (fuel i : Nat) (status : Option Int) (err : Option (ReqError α)),
      retryGo f tl fuel i status err = retryGo g tl fuel i status err := by
  intro fuel
  induction fuel with
  | zero => intro i status err; simp [retryGo]
  | succ fuel ih =>
    intro i status err
    by_cases hc : canTry status = true
    · cases hfi : f i with
      | res r0 =>
        have hgi : g i = .res r0 := by rw [← h i, hfi]
        by_cases hs : (r0.status == 200 || r0.status == 201) = true
        · rw [retryGo_step_ok hc hfi hs, retryGo_step_ok hc hgi hs]
        · rw [retryGo_step_res hc hfi (Bool.not_eq_true _ ▸ hs),
            retryGo_step_res hc hgi (Bool.not_eq_true _ ▸ hs), ih]
      | exn e =>
        have hgi : g i = .exn e := by rw [← h i, hfi]
        rw [retryGo_step_exn hc hfi, retryGo_step_exn hc hgi, ih]
    · rw [retryGo_stop f tl (fuel + 1) i status err (Bool.not_eq_true _ ▸ hc),
        retryGo_stop g tl (fuel + 1) i status err (Bool.not_eq_true _ ▸ hc)]

lemma addSegs_leaf : ∀ (segs : List String) (n fn : String),
    addSegs segs (FileTree.mk n none) fn = .mk n none := by
  intro segs
  induction segs with
  | nil => intro n fn; rfl
  | cons s rest ih =>
    intro n fn
    by_cases hdot : s = "." <;> simp [addSegs, hdot, ih]

lemma addSegs_cons_dir (s : String) (rest : List String) (n : String)
    (l : List FileTree) (fn : String) (hdot : ¬s = ".") :
    addSegs (s :: rest) (.mk n (some l)) fn =
      match l.find? (fun c => c.name == s) with
      | some c => .mk n (some (replaceFirst l s (addSegs rest c fn)))
      | none => .mk n (some (l ++ [addSegs rest (.mk s (some [])) fn])) := by
  simp [addSegs, hdot]

lemma addSegs_name : ∀ (segs : List String) (t : FileTree) (fn : String),
    (addSegs segs t fn).name = t.name := by
  intro segs
  induction segs with
  | nil =>
    intro t fn
    match t with
    | .mk n none => rfl
    | .mk n (some l) => rfl
  | cons s rest ih =>
    intro t fn
    by_cases hdot : s = "."
    · simp only [addSegs, hdot, if_true]
      exact ih t fn
    · match t with
      | .mk n none => simp [addSegs, hdot, FileTree.name]
      | .mk n (some l) =>
        rw [addSegs_cons_dir s rest n l fn hdot]
        cases l.find? (fun c => c.name == s) <;> rfl

lemma addSegs_isDir : ∀ (segs : List String) (t : FileTree) (fn : String),
    (addSegs segs t fn).isDir = t.isDir := by
  intro segs
  induction segs with
  | nil =>
    intro t fn
    match t with
    | .mk n none => rfl
    | .mk n (some l) => rfl
  | cons s rest ih =>
    intro t fn
    by_cases hdot : s = "."
    · simp only [addSegs, hdot, if_true]
      exact ih t fn
    · match t with
      | .mk n none => simp [addSegs, hdot, FileTree.isDir]
      | .mk n (some l) =>
        rw [addSegs_cons_dir s rest n l fn hdot]
        cases l.find? (fun c => c.name == s) <;> rfl

lemma dirNames_cons (x : FileTree) (xs : List FileTree) :
    dirNames (x :: xs) =
      if x.isDir = true then x.name :: dirNames xs else dirNames xs := by
  by_cases h : x.isDir = true <;> simp [dirNames, List.filter_cons, h]

lemma dirNames_append (l1 l2 : List FileTree) :
    dirNames (l1 ++ l2) = dirNames l1 ++ dirNames l2 := by
  simp [dirNames, List.filter_append]

lemma mem_replaceFirst : ∀ (l : List FileTree) (s : String) (v c2 : FileTree),
    c2 ∈ replaceFirst l s v → c2 ∈ l ∨ c2 = v := by
  intro l
  induction l with
  | nil => intro s v c2 h; simp [replaceFirst] at h
  | cons c cs ih =>
    intro s v c2 h
    by_cases hc : (c.name == s) = true
    · simp only [replaceFirst, hc, if_true] at h
      rcases List.mem_cons.mp h with h | h
      · right; exact h
      · left; exact List.mem_cons_of_mem _ h
    · simp only [replaceFirst, hc, Bool.false_eq_true, if_false] at h
      rcases List.mem_cons.mp h with h | h
      · left; rw [h]; exact List.mem_cons_self _ _
      · rcases ih s v c2 h with h2 | h2
        · left; exact List.mem_cons_of_mem _ h2
        · right; exact h2

lemma dirNames_replaceFirst : ∀ (l : List FileTree) (s : String) (v c : FileTree),
    l.find? (fun c => c.name == s) = some c → v.name = c.name →
    v.isDir = c.isDir → dirNames (replaceFirst l s v) = dirNames l := by
  intro l
  induction l with
  | nil => intro s v c h _ _; simp at h
  | cons c0 cs ih =>
    intro s v c hfind hname hdir
    by_cases hc : (c0.name == s) = true
    · simp only [List.find?, hc] at hfind
      have hc0 : c0 = c := by simpa using hfind
      subst hc0
      simp only [replaceFirst, hc, if_true]
      rw [dirNames_cons, dirNames_cons, hdir, hname]
    · have hc2 : (c0.name == s) = false := by simpa using hc
      simp only [List.find?, hc2] at hfind
      simp only [replaceFirst, hc2, Bool.false_eq_true, if_false]
      rw [dirNames_cons, dirNames_cons, ih s v c hfind hname hdir]

lemma not_mem_dirNames {l : List FileTree} {s : String}
    (h : l.find? (fun c => c.name == s) = none) : s ∉ dirNames l := by
  intro hmem
  simp only [dirNames, List.mem_map, List.mem_filter] at hmem
  obtain ⟨c, ⟨hcl, hcd⟩, hcn⟩ := hmem
  have hfc := List.find?_eq_none.mp h c hcl
  rw [hcn] at hfc
  simp at hfc

lemma WF_addSegs : ∀ (segs : List String) (t : FileTree) (fn : String),
    WF t → WF (addSegs segs t fn) := by
  intro segs
  induction segs with
  | nil =>
    intro t fn hwf
    cases hwf with
    | leaf n => exact WF.leaf n
    | dir n l hnd hall =>
      show WF (.mk n (some (l ++ [.mk fn none])))
      refine WF.dir n _ ?_ ?_
      · rw [dirNames_append]
        have hleaf : dirNames [FileTree.mk fn none] = [] := rfl
        rw [hleaf, List.append_nil]
        exact hnd
      · intro c hc
        rcases List.mem_append.mp hc with h | h
        · exact hall c h
        · simp at h
          rw [h]
          exact WF.leaf fn
  | cons s rest ih =>
    intro t fn hwf
    by_cases hdot : s = "."
    · simp only [addSegs, hdot, if_true]
      exact ih t fn hwf
    · cases hwf with
      | leaf n =>
        rw [addSegs_leaf]
        exact WF.leaf n
      | dir n l hnd hall =>
        cases hfind : l.find? (fun c => c.name == s) with
        | some c =>
          have hcl : c ∈ l := List.mem_of_find?_eq_some hfind
          have hcs : c.name = s := by
            have := List.find?_some hfind
            simpa using this
          have hgoal : addSegs (s :: rest) (.mk n (some l)) fn =
              .mk n (some (replaceFirst l s (addSegs rest c fn))) := by
            simp [addSegs, hdot, hfind]
          rw [hgoal]
          refine WF.dir n _ ?_ ?_
          · rw [dirNames_replaceFirst l s _ c hfind (addSegs_name rest c fn)
              (addSegs_isDir rest c fn)]
            exact hnd
          · intro c2 hc2
            rcases mem_replaceFirst l s _ c2 hc2 with h | h
            · exact hall c2 h
            · rw [h]
              exact ih c fn (hall c hcl)
        | none =>
          have hgoal : addSegs (s :: rest) (.mk n (some l)) fn =
              .mk n (some (l ++ [addSegs rest (.mk s (some [])) fn])) := by
            simp [addSegs, hdot, hfind]
          rw [hgoal]
          have hwf0 : WF (.mk s (some ([] : List FileTree))) :=
            WF.dir s [] (by simp [dirNames]) (by intro c hc; simp at hc)
          refine WF.dir n _ ?_ ?_
          · rw [dirNames_append]
            have hnew : dirNames [addSegs rest (.mk s (some [])) fn] = [s] := by
              rw [dirNames_cons]
              have hd : (addSegs rest (.mk s (some [])) fn).isDir = true := by
                rw [addSegs_isDir]; rfl
              have hn : (addSegs rest (.mk s (some [])) fn).name = s := by
                rw [addSegs_name]; rfl
              rw [hd, hn, if_pos rfl]
              rfl
            rw [hnew]
            have hs_not := not_mem_dirNames hfind
            simp [List.nodup_append, hnd, hs_not]
          · intro c2 hc2
            rcases List.mem_append.mp hc2 with h | h
            · exact hall c2 h
            · simp at h
              rw [h]
              exact ih _ fn hwf0

lemma commonLen_self_append : ∀ (xs r : List String),
    commonLen xs (xs ++ r) = xs.length := by
  intro xs
  induction xs with
  | nil => intro r; simp [commonLen]
  | cons x xs ih => intro r; simp [commonLen, ih]

lemma intercalate_go_append (s : String) :
    ∀ (as : List String) (a b : String),
      String.intercalate.go (a ++ b) s as = a ++ String.intercalate.go b s as := by
  intro as
  induction as with
  | nil => intro a b; rfl
  | cons c cs ih =>
    intro a b
    have h1 : String.intercalate.go (a ++ b) s (c :: cs) =
        String.intercalate.go (a ++ b ++ s ++ c) s cs := rfl
    have h2 : String.intercalate.go b s (c :: cs) =
        String.intercalate.go (b ++ s ++ c) s cs := rfl
    rw [h1, h2]
    have he : a ++ b ++ s ++ c = a ++ (b ++ s ++ c) := by
      simp [String.append_assoc]
    rw [he]
    exact ih a (b ++ s ++ c)

lemma intercalate_cons_cons (s x y : String) (ys : List String) :
    String.intercalate s (x :: y :: ys) =
      x ++ s ++ String.intercalate s (y :: ys) := by
  have h1 : String.intercalate s (x :: y :: ys) =
      String.intercalate.go (x ++ s ++ y) s ys := rfl
  have h2 : String.intercalate s (y :: ys) = String.intercalate.go y s ys := rfl
  rw [h1, h2, intercalate_go_append s ys (x ++ s) y]

lemma splitCharAux_ne_nil (c : Char) : ∀ (l : List Char), splitCharAux c l ≠ [] := by
  intro l
  cases l with
  | nil => simp [splitCharAux]
  | cons x xs =>
    simp only [splitCharAux]
    cases h : splitCharAux c xs with
    | nil => simp
    | cons y ys => by_cases hx : x = c <;> simp [hx]

lemma splitCharAux_no_sep (c : Char) :
    ∀ (l : List Char), c ∉ l → splitCharAux c l = [l] := by
  intro l
  induction l with
  | nil => intro _; rfl
  | cons x xs ih =>
    intro h
    have hx : ¬x = c := by
      intro he
      exact h (by rw [he]; exact List.mem_cons_self _ _)
    have hxs : c ∉ xs := fun hm => h (List.mem_cons_of_mem _ hm)
    simp only [splitCharAux, ih hxs]
    simp [hx]

lemma splitCharAux_append_sep (c : Char) :
    ∀ (a b : List Char), c ∉ a →
      splitCharAux c (a ++ c :: b) = a :: splitCharAux c b := by
  intro a
  induction a with
  | nil =>
    intro b _
    simp only [List.nil_append, splitCharAux]
    cases h : splitCharAux c b with
    | nil => exact absurd h (splitCharAux_ne_nil c b)
    | cons y ys => simp
  | cons x xs ih =>
    intro b h
    have hx : ¬x = c := by
      intro he
      exact h (by rw [he]; exact List.mem_cons_self _ _)
    have hxs : c ∉ xs := fun hm => h (List.mem_cons_of_mem _ hm)
    simp only [List.cons_append, splitCharAux, List.append_eq]
    rw [ih b hxs]
    simp [hx]

lemma pathSegments_intercalate :
    ∀ (r : List String),
      (∀ x ∈ r, x ≠ "" ∧ x ≠ "." ∧ ('/' : Char) ∉ x.data) →
      pathSegments (String.intercalate "/" r) = r := by
  intro r
  induction r with
  | nil => intro _; rfl
  | cons x xs ih =>
    intro h
    obtain ⟨hne, hnd, hns⟩ := h x (List.mem_cons_self _ _)
    cases xs with
    | nil =>
      have hI : String.intercalate "/" [x] = x := rfl
      rw [hI]
      simp only [pathSegments, splitOnChar, splitCharAux_no_sep '/' x.data hns,
        List.map_cons, List.map_nil]
      show List.filter (fun s => s != "" && s != ".") [x] = [x]
      simp [hne, hnd]
    | cons y ys =>
      have hrest : ∀ z ∈ y :: ys, z ≠ "" ∧ z ≠ "." ∧ ('/' : Char) ∉ z.data :=
        fun z hz => h z (List.mem_cons_of_mem _ hz)
      rw [intercalate_cons_cons]
      have hdata : (x ++ "/" ++ String.intercalate "/" (y :: ys)).data =
          x.data ++ '/' :: (String.intercalate "/" (y :: ys)).data := by
        simp [String.data_append]
      have hsplit : splitOnChar '/' (x ++ "/" ++ String.intercalate "/" (y :: ys)) =
          x :: splitOnChar '/' (String.intercalate "/" (y :: ys)) := by
        simp only [splitOnChar, hdata, splitCharAux_append_sep '/' x.data _ hns,
          List.map_cons]
      have ihr := ih hrest
      simp only [pathSegments] at ihr
      simp only [pathSegments, hsplit, List.filter_cons]
      simp [hne, hnd, ihr]

lemma mem_of_mem_eraseIdx {α : Type} :
    ∀ (l : List α) (k : Nat) (a : α), a ∈ l.eraseIdx k → a ∈ l := by
  intro l
  induction l with
  | nil => intro k a h; simp [List.eraseIdx] at h
  | cons x xs ih =>
    intro k a h
    cases k with
    | zero =>
      simp only [List.eraseIdx] at h
      exact List.mem_cons_of_mem _ h
    | succ k2 =>
      simp only [List.eraseIdx] at h
      rcases List.mem_cons.mp h with h | h
      · rw [h]; exact List.mem_cons_self _ _
      · exact List.mem_cons_of_mem _ (ih k2 a h)

lemma mem_getD_or_eraseIdx {α : Type} :
    ∀ (l : List α) (k : Nat) (d : α) (a : α), a ∈ l →
      a = l.getD k d ∨ a ∈ l.eraseIdx k := by
  intro l
  induction l with
  | nil => intro k d a h; simp at h
  | cons x xs ih =>
    intro k d a h
    cases k with
    | zero =>
      rcases List.mem_cons.mp h with h | h
      · left; simpa using h
      · right; simpa [List.eraseIdx] using h
    | succ k2 =>
      rcases List.mem_cons.mp h with h | h
      · right
        simp only [List.eraseIdx]
        rw [h]
        exact List.mem_cons_self _ _
      · rcases ih k2 d a h with h2 | h2
        · left; simpa using h2
        · right
          simp only [List.eraseIdx]
          exact List.mem_cons_of_mem _ h2

lemma pickFrom_mem {ε : Type} (q : List (Option ε)) (sched : List Nat)
    (hq : q ≠ []) (e : ε) (h : pickFrom q sched = some e) : some e ∈ q := by
  have hlen : 0 < q.length := List.length_pos.mpr hq
  have hk : pickIdx sched q.length < q.length := Nat.mod_lt _ hlen
  rw [pickFrom, List.getD_eq_getElem _ _ hk] at h
  rw [← h]
  exact List.getElem_mem _

lemma length_eraseIdx_succ {α : Type} :
    ∀ (l : List α) (k : Nat), k < l.length →
      (l.eraseIdx k).length + 1 = l.length := by
  intro l
  induction l with
  | nil => intro k h; simp at h
  | cons x xs ih =>
    intro k h
    cases k with
    | zero => simp [List.eraseIdx]
    | succ k2 =>
      simp only [List.eraseIdx, List.length_cons]
      rw [ih k2 (by simpa using h)]

lemma joinGo_ok_iff {ε : Type} :
    ∀ (fuel : Nat) (q : List (Option ε)) (sched : List Nat),
      q.length = fuel →
      (joinGo fuel q sched = .ok () ↔ ∀ o ∈ q, o = none) := by
  intro fuel
  induction fuel with
  | zero =>
    intro q sched hlen
    have hq : q = [] := List.length_eq_zero.mp hlen
    subst hq
    simp [joinGo]
  | succ fuel ih =>
    intro q sched hlen
    match q with
    | [] => simp at hlen
    | x :: xs =>
      cases hp : pickFrom (x :: xs) sched with
      | some e =>
        simp only [joinGo, hp]
        constructor
        · intro h; cases h
        · intro hall
          have hmem := pickFrom_mem (x :: xs) sched (by simp) e hp
          have := hall _ hmem
          cases this
      | none =>
        have hk : pickIdx sched (x :: xs).length < (x :: xs).length :=
          Nat.mod_lt _ (by simp)
        have hlen2 : ((x :: xs).eraseIdx (pickIdx sched (x :: xs).length)).length
            = fuel := by
          have := length_eraseIdx_succ (x :: xs) _ hk
          omega
        simp only [joinGo, hp]
        rw [ih _ (sched.drop 1) hlen2]
        constructor
        · intro hall a ha
          rcases mem_getD_or_eraseIdx (x :: xs) (pickIdx sched (x :: xs).length)
              none a ha with h2 | h2
          · rw [h2]; exact hp
          · exact hall a h2
        · intro hall a ha
          exact hall a (mem_of_mem_eraseIdx _ _ a ha)

lemma joinGo_error_mem {ε : Type} :
    ∀ (fuel : Nat) (q : List (Option ε)) (sched : List Nat) (e : ε),
      joinGo fuel q sched = .error e → some e ∈ q := by
  intro fuel
  induction fuel with
  | zero =>
    intro q sched e h
    match q with
    | [] => cases h
    | x :: xs => cases h
  | succ fuel ih =>
    intro q sched e h
    match q with
    | [] => cases h
    | x :: xs =>
      cases hp : pickFrom (x :: xs) sched with
      | some e2 =>
        simp only [joinGo, hp] at h
        cases h
        exact pickFrom_mem (x :: xs) sched (by simp) e hp
      | none =>
        simp only [joinGo, hp] at h
        exact mem_of_mem_eraseIdx _ _ _ (ih _ (sched.drop 1) e h)

lemma dispatchLC_ok_iff {ε : Type} :
    ∀ (items : List (Option ε)) (limit : Nat) (queue : List (Option ε))
      (sched : List Nat),
      (dispatchLC limit items queue sched = .ok () ↔
        ((∀ o ∈ items, o = none) ∧ ∀ o ∈ queue, o = none)) := by
  intro items
  induction items with
  | nil =>
    intro limit queue sched
    simp only [dispatchLC]
    rw [joinGo_ok_iff queue.length queue sched rfl]
    simp
  | cons o rest ih =>
    intro limit queue sched
    by_cases hlim : limit ≤ (queue ++ [o]).length
    · cases hp : pickFrom (queue ++ [o]) sched with
      | some e =>
        simp only [dispatchLC, if_pos hlim, hp]
        constructor
        · intro h; cases h
        · rintro ⟨hitems, hqueue⟩
          have hmem := pickFrom_mem (queue ++ [o]) sched (by simp) e hp
          rcases List.mem_append.mp hmem with h | h
          · have := hqueue _ h; cases this
          · simp only [List.mem_singleton] at h
            have := hitems o (List.mem_cons_self _ _)
            rw [this] at h
            cases h
      | none =>
        simp only [dispatchLC, if_pos hlim, hp]
        rw [ih limit _ (sched.drop 1)]
        constructor
        · rintro ⟨hrest, herase⟩
          have hall2 : ∀ a ∈ queue ++ [o], a = none := by
            intro a ha
            rcases mem_getD_or_eraseIdx (queue ++ [o])
                (pickIdx sched (queue ++ [o]).length) none a ha with h2 | h2
            · rw [h2]; exact hp
            · exact herase a h2
          refine ⟨?_, ?_⟩
          · intro a ha
            rcases List.mem_cons.mp ha with h | h
            · rw [h]
              exact hall2 o (List.mem_append.mpr (Or.inr (by simp)))
            · exact hrest a h
          · intro a ha
            exact hall2 a (List.mem_append.mpr (Or.inl ha))
        · rintro ⟨hitems, hqueue⟩
          refine ⟨fun a ha => hitems a (List.mem_cons_of_mem _ ha), ?_⟩
          intro a ha
          have ha2 := mem_of_mem_eraseIdx _ _ a ha
          rcases List.mem_append.mp ha2 with h | h
          · exact hqueue a h
          · simp only [List.mem_singleton] at h
            rw [h]
            exact hitems o (List.mem_cons_self _ _)
    · simp only [dispatchLC, if_neg hlim]
      rw [ih limit _ sched]
      constructor
      · rintro ⟨hrest, hq2⟩
        refine ⟨?_, ?_⟩
        · intro a ha
          rcases List.mem_cons.mp ha with h | h
          · rw [h]
            exact hq2 o (List.mem_append.mpr (Or.inr (by simp)))
          · exact hrest a h
        · intro a ha
          exact hq2 a (List.mem_append.mpr (Or.inl ha))
      · rintro ⟨hitems, hqueue⟩
        refine ⟨fun a ha => hitems a (List.mem_cons_of_mem _ ha), ?_⟩
        intro a ha
        rcases List.mem_append.mp ha with h | h
        · exact hqueue a h
        · simp only [List.mem_singleton] at h
          rw [h]
          exact hitems o (List.mem_cons_self _ _)

lemma dispatchLC_error_mem {ε : Type} :
    ∀ (items : List (Option ε)) (limit : Nat) (queue : List (Option ε))
      (sched : List Nat) (e : ε),
      dispatchLC limit items queue sched = .error e →
      some e ∈ items ∨ some e ∈ queue := by
  intro items
  induction items with
  | nil =>
    intro limit queue sched e h
    simp only [dispatchLC] at h
    exact Or.inr (joinGo_error_mem queue.length queue sched e h)
  | cons o rest ih =>
    intro limit queue sched e h
    by_cases hlim : limit ≤ (queue ++ [o]).length
    · cases hp : pickFrom (queue ++ [o]) sched with
      | some e2 =>
        simp only [dispatchLC, if_pos hlim, hp] at h
        cases h
        have hmem := pickFrom_mem (queue ++ [o]) sched (by simp) e hp
        rcases List.mem_append.mp hmem with h2 | h2
        · exact Or.inr h2
        · simp only [List.mem_singleton] at h2
          exact Or.inl (by rw [← h2]; exact List.mem_cons_self _ _)
      | none =>
        simp only [dispatchLC, if_pos hlim, hp] at h
        rcases ih limit _ (sched.drop 1) e h with h2 | h2
        · exact Or.inl (List.mem_cons_of_mem _ h2)
        · have := mem_of_mem_eraseIdx _ _ _ h2
          rcases List.mem_append.mp this with h3 | h3
          · exact Or.inr h3
          · simp only [List.mem_singleton] at h3
            exact Or.inl (by rw [← h3]; exact List.mem_cons_self _ _)
    · simp only [dispatchLC, if_neg hlim] at h
      rcases ih limit _ sched e h with h2 | h2
      · exact Or.inl (List.mem_cons_of_mem _ h2)
      · rcases List.mem_append.mp h2 with h3 | h3
        · exact Or.inr h3
        · simp only [List.mem_singleton] at h3
          exact Or.inl (by rw [← h3]; exact List.mem_cons_self _ _)

/-- C3 (counterexample): the claim says `sendRequestWithRetry` re-attempts
only when the previous attempt produced no status or a status in
[500,600); but with attempt 0 fulfilling with status 0 — a falsy status
that is neither absent nor in [500,600) — a second attempt is performed
(`attemptsUsed = 2`) and its response is returned. -/
theorem sendRequestWithRetry_zero_status_cex :
    attemptsUsed cexC3 2 = 2 ∧
    sendRequestWithRetry cexC3 2 = .ok ⟨200, 1⟩ ∧
    statusAfter (cexC3 0) = some 0 ∧
    ∀ s : Int, statusAfter (cexC3 0) = some s → ¬(500 ≤ s ∧ s < 600) := by
  refine ⟨rfl, rfl, rfl, ?_⟩
  intro s hs h
  simp [cexC3, statusAfter] at hs
  omega

/-- C3 (amended): `sendRequestWithRetry` returns the first response whose
status is exactly 200 or 201, and re-attempts only when the previous
attempt produced no status, a zero (falsy) status, or a status in
[500,600) — i.e. only when `canTry` accepted the recorded status; for
every N >= 1, if the first N-1 attempts fulfill with status 503 and
attempt N fulfills with 200, the attempt-N response is returned using
exactly N attempts; and whenever an attempt fulfills with status 404, the
function throws the corresponding HTTP error after exactly that one
attempt, regardless of remaining budget. -/

theorem sendRequestWithRetry_retry_policy {α : Type} (f : Nat → AttemptRes α)
    (tl : Int) :
    (∀ j, j + 2 ≤ attemptsUsed f tl → canTry (statusAfter (f j)) = true) ∧
    (∀ r, sendRequestWithRetry f tl = .ok r →
      ∃ j, attemptsUsed f tl = j + 1 ∧ f j = .res r ∧
        (r.status = 200 ∨ r.status = 201) ∧
        ∀ k, k < j → ∀ r2, f k = .res r2 →
          ¬(r2.status = 200 ∨ r2.status = 201)) ∧
    (∀ j r, j < attemptsUsed f tl → f j = .res r → r.status = 404 →
      sendRequestWithRetry f tl = .error (.httpError r) ∧
        attemptsUsed f tl = j + 1) ∧
    (∀ (n : Nat) (r : Response α),
      (∀ k, k < n → ∃ b, f k = AttemptRes.res ⟨503, b⟩) →
      f n = .res r → r.status = 200 →
      sendRequestWithRetry f ((n : Int) + 1) = .ok r ∧
        attemptsUsed f ((n : Int) + 1) = n + 1) := by
  refine ⟨?_, ?_, ?_, ?_⟩
  · intro j h
    have := retryGo_only_when f tl tl.toNat 0 none none j h
    simpa using this
  · intro r h
    obtain ⟨j, hcount, hfj, hstat, hfirst⟩ :=
      retryGo_ok_first f tl tl.toNat 0 none none r h
    refine ⟨j, hcount, by simpa using hfj, hstat, ?_⟩
    intro k hk r2 hr2
    exact hfirst k hk r2 (by simpa using hr2)
  · intro j r hj hf h404
    exact retryGo_404_stops f tl tl.toNat 0 none none j r hj (by simpa using hf) h404
  · intro n r h503 hn h200
    have htn : ((n : Int) + 1).toNat = n + 1 := by omega
    have := retryGo_fault_then_ok f ((n : Int) + 1) n 0 none none r rfl
      (fun k hk => by simpa using h503 k hk) (by simpa using hn) (Or.inl h200)
    constructor
    · simp only [sendRequestWithRetry, sendRequestWithRetryI, htn, this]
    · simp only [attemptsUsed, sendRequestWithRetryI, htn, this]

/-- C3 (witness): with every attempt fulfilling 404 and budget 5, the
amended theorem yields failure after exactly one attempt. -/

theorem sendRequestWithRetry_retry_policy_witness :
    sendRequestWithRetry f404c 5 = .error (.httpError ⟨404, 7⟩) ∧
      attemptsUsed f404c 5 = 1 :=
  (sendRequestWithRetry_retry_policy f404c 5).2.2.1 0 ⟨404, 7⟩ (by decide) rfl rfl

/-- C9: for `tryLimits <= 0`, `sendRequestWithRetry` performs zero attempts
and throws the bad-tryLimits configuration error; that configuration error
is thrown exactly when no attempt ever ran (which happens exactly when
`tryLimits <= 0`), and it is distinct from every request error. -/

theorem sendRequestWithRetry_config_error {α : Type} (f : Nat → AttemptRes α)
    (tl : Int) :
    (tl ≤ 0 → attemptsUsed f tl = 0 ∧
      sendRequestWithRetry f tl = .error (.badTryLimits tl)) ∧
    (sendRequestWithRetry f tl = .error (.badTryLimits tl) ↔
      attemptsUsed f tl = 0) ∧
    (attemptsUsed f tl = 0 ↔ tl ≤ 0) ∧
    (∀ r : Response α, ReqError.badTryLimits (α := α) tl ≠ .httpError r) ∧
    (∀ e : ExnVal, ReqError.badTryLimits (α := α) tl ≠ .thrown e) := by
  have h1 : tl ≤ 0 → sendRequestWithRetryI f tl = (.error (.badTryLimits tl), 0) := by
    intro h
    have htn : tl.toNat = 0 := by omega
    simp only [sendRequestWithRetryI, htn, retryGo, Option.getD]
  have h2 : 0 < tl → 1 ≤ attemptsUsed f tl := by
    intro h
    have he : tl.toNat = (tl.toNat - 1) + 1 := by omega
    simp only [attemptsUsed, sendRequestWithRetryI]
    rw [he]
    exact retryGo_pos_of_canTry f tl _ 0 none none rfl
  have h3 : sendRequestWithRetry f tl = .error (.badTryLimits tl) →
      attemptsUsed f tl = 0 := by
    intro h
    simp only [sendRequestWithRetry, sendRequestWithRetryI] at h
    simp only [attemptsUsed, sendRequestWithRetryI]
    exact (retryGo_badTL f tl tl.toNat 0 none none tl
      (by intro ty hty; cases hty) h).2
  have h4 : attemptsUsed f tl = 0 → tl ≤ 0 := by
    intro h
    by_contra hpos
    have := h2 (by omega)
    omega
  refine ⟨?_, ⟨h3, ?_⟩, ⟨h4, ?_⟩, ?_, ?_⟩
  · intro h
    constructor
    · simp only [attemptsUsed, h1 h]
    · simp only [sendRequestWithRetry, h1 h]
  · intro h
    simp only [sendRequestWithRetry, h1 (h4 h)]
  · intro h
    simp only [attemptsUsed, h1 h]
  · intro r h
    cases h
  · intro e h
    cases h

/-- C9 (witness): with budget -2, no attempt runs and the configuration
error is thrown. -/

theorem sendRequestWithRetry_config_error_witness :
    attemptsUsed f404c (-2) = 0 ∧
      sendRequestWithRetry f404c (-2) = .error (.badTryLimits (-2)) :=
  (sendRequestWithRetry_config_error f404c (-2)).1 (by decide)

/-! ## sendRequestWithTimeout (util.ts lines 8-30) -/

/-- C6: the code does not cancel the pending timer on the failure path.
With a requestFn whose single attempt rejects with a non-cancellation
error (so the retried operation settles before the deadline fires),
`sendRequestWithTimeout` re-throws, yet `clearTimeout` never ran; on the
success path it does run. The claim (and the spec) say the timer is
cancelled on both paths. -/
theorem sendRequestWithTimeout_timer_leak :
    sendRequestWithTimeout cexC6 0 1 = .failed (.thrown ⟨none, false, 42⟩) ∧
    timerCleared cexC6 0 1 = false ∧
    timerCleared (fun _ _ => .res (⟨200, 0⟩ : Response Nat)) 0 1 = true := by
  refine ⟨rfl, rfl, rfl⟩

/-- C7: the one cancel token created by `sendRequestWithTimeout` is passed
to every retried attempt — the outcome depends on `requestFn` only through
its behaviour at that token, so one deadline spans all attempts; when the
retried operation rejects with a cancellation error, the result is the
distinct timeout error; a non-cancellation error is re-thrown unchanged;
and the timeout outcome is distinguishable from every other outcome. -/

theorem sendRequestWithTimeout_deadline {α : Type}
    (requestFn gFn : Nat → Nat → AttemptRes α) (tk : Nat) (tl : Int) :
    ((∀ i, requestFn tk i = gFn tk i) →
      sendRequestWithTimeoutI requestFn tk tl = sendRequestWithTimeoutI gFn tk tl) ∧
    (∀ e, sendRequestWithRetry (fun i => requestFn tk i) tl = .error e →
      isCancelErr e = true →
      sendRequestWithTimeout requestFn tk tl = .timeoutErr) ∧
    (∀ e, sendRequestWithRetry (fun i => requestFn tk i) tl = .error e →
      isCancelErr e = false →
      sendRequestWithTimeout requestFn tk tl = .failed e) ∧
    (∀ e : ReqError α, TimeoutResult.timeoutErr (α := α) ≠ .failed e) ∧
    (∀ r : Response α, TimeoutResult.timeoutErr (α := α) ≠ .ok r) := by
  refine ⟨?_, ?_, ?_, ?_, ?_⟩
  · intro h
    have hr : sendRequestWithRetry (fun i => requestFn tk i) tl =
        sendRequestWithRetry (fun i => gFn tk i) tl := by
      simp only [sendRequestWithRetry, sendRequestWithRetryI]
      rw [retryGo_congr (fun i => requestFn tk i) (fun i => gFn tk i) tl h]
    simp only [sendRequestWithTimeoutI, hr]
  · intro e he hcan
    simp only [sendRequestWithTimeout, sendRequestWithTimeoutI, he, hcan, if_true]
  · intro e he hcan
    simp only [sendRequestWithTimeout, sendRequestWithTimeoutI, he, hcan,
      Bool.false_eq_true, if_false]
  · intro e h
    cases h
  · intro r h
    cases h

/-- C7 (witness): with every attempt observing the cancellation, the
result is the timeout error. -/

theorem sendRequestWithTimeout_deadline_witness :
    sendRequestWithTimeout cancelFn 0 1 = .timeoutErr :=
  (sendRequestWithTimeout_deadline cancelFn cancelFn 0 1).2.1
    (.thrown ⟨none, true, 1⟩) rfl rfl

/-! ## Path helpers (posix `path.sep = "/"`, as selected on line 158) -/

/-- C4 (counterexample): items fed to `buildFileTree` in the order
a/b.txt, a/c.txt, d.txt but completing in reverse order yield children
[d.txt, a [c.txt, b.txt]] — not the same tree (with the stated child
ordering) as input-order completion, which yields
[a [b.txt, c.txt], d.txt]: the structure does depend on completion order. -/
theorem buildFileTree_order_cex :
    buildFileTree "." ["d.txt", "a/c.txt", "a/b.txt"] =
      [.mk "d.txt" none, .mk "a" (some [.mk "c.txt" none, .mk "b.txt" none])] ∧
    buildFileTree "." ["a/b.txt", "a/c.txt", "d.txt"] =
      [.mk "a" (some [.mk "b.txt" none, .mk "c.txt" none]), .mk "d.txt" none] ∧
    childNames (buildFileTree "." ["d.txt", "a/c.txt", "a/b.txt"]) ≠
      childNames (buildFileTree "." ["a/b.txt", "a/c.txt", "d.txt"]) := by
  refine ⟨rfl, rfl, by decide⟩

/-- C4 (amended): with completions in reverse order the tree contains the
same nodes — one directory a holding leaves b.txt and c.txt, and leaf
d.txt — but sibling ordering follows completion order, so the result is a
permutation (at each level) of the input-order tree, not an identical
one. -/

theorem buildFileTree_order_amended :
    buildFileTree "." ["d.txt", "a/c.txt", "a/b.txt"] =
      [.mk "d.txt" none, .mk "a" (some [.mk "c.txt" none, .mk "b.txt" none])] ∧
    (childNames (buildFileTree "." ["d.txt", "a/c.txt", "a/b.txt"])).Perm
      (childNames (buildFileTree "." ["a/b.txt", "a/c.txt", "d.txt"])) ∧
    ∀ t1 ∈ buildFileTree "." ["d.txt", "a/c.txt", "a/b.txt"],
      ∀ t2 ∈ buildFileTree "." ["a/b.txt", "a/c.txt", "d.txt"],
        t1.name = t2.name →
        (childNames ((t1.children).getD [])).Perm
          (childNames ((t2.children).getD [])) := by
  refine ⟨rfl, by decide, by decide⟩

/-- C5 (counterexample): after inserting the path a (a leaf), inserting
a/b.txt finds the existing leaf named a, walks into it, and the final
`children?.push` is a no-op on its absent children list: the tree is
unchanged and no b.txt leaf was appended anywhere, contradicting
"always appends a new leaf node for the file segment". -/

theorem fileTreeAdd_leaf_blocked_cex :
    fileTreeAdd (.mk "root" (some [])) "a" =
      .mk "root" (some [.mk "a" none]) ∧
    fileTreeAdd (fileTreeAdd (.mk "root" (some [])) "a") "a/b.txt" =
      fileTreeAdd (.mk "root" (some [])) "a" :=
  ⟨rfl, rfl⟩

/-- C5 (amended): each insertion skips `"."` segments, appends the leaf
when the walk ends at a directory node, creates a missing intermediate
directory node exactly when no child of that name exists, descends into
the first existing child of that name otherwise (directory or leaf — so
well-formedness, in particular no duplicate directory names among
siblings, is preserved), leaves the tree unchanged when the walk is
blocked by a leaf node, and inserting the same full path twice through
directory nodes appends two identical leaf entries. -/

theorem fileTreeAdd_insertion_amended :
    (∀ (t : FileTree) (rest : List String) (fn : String),
      addSegs ("." :: rest) t fn = addSegs rest t fn) ∧
    (∀ (n fn : String) (l : List FileTree),
      addSegs [] (.mk n (some l)) fn = .mk n (some (l ++ [.mk fn none]))) ∧
    (∀ (n s fn : String) (rest : List String) (l : List FileTree), s ≠ "." →
      l.find? (fun c => c.name == s) = none →
      addSegs (s :: rest) (.mk n (some l)) fn =
        .mk n (some (l ++ [addSegs rest (.mk s (some [])) fn]))) ∧
    (∀ (n s fn : String) (rest : List String) (l : List FileTree)
      (c : FileTree), s ≠ "." → l.find? (fun c2 => c2.name == s) = some c →
      addSegs (s :: rest) (.mk n (some l)) fn =
        .mk n (some (replaceFirst l s (addSegs rest c fn)))) ∧
    (∀ (segs : List String) (t : FileTree) (fn : String),
      WF t → WF (addSegs segs t fn)) ∧
    (∀ (segs : List String) (n fn : String),
      addSegs segs (.mk n none) fn = .mk n none) ∧
    (fileTreeAdd (fileTreeAdd (.mk "root" (some [])) "a/b.txt") "a/b.txt" =
      .mk "root" (some [.mk "a" (some [.mk "b.txt" none, .mk "b.txt" none])])) := by
  refine ⟨?_, ?_, ?_, ?_, WF_addSegs, addSegs_leaf, rfl⟩
  · intro t rest fn
    simp [addSegs]
  · intro n fn l
    rfl
  · intro n s fn rest l hdot hfind
    rw [addSegs_cons_dir s rest n l fn hdot, hfind]
  · intro n s fn rest l c hdot hfind
    rw [addSegs_cons_dir s rest n l fn hdot, hfind]

/-- C5 (witness): creating one missing intermediate directory at a
concrete input via the amended theorem. -/

theorem fileTreeAdd_insertion_amended_witness :
    addSegs ["x"] (.mk "root" (some [])) "y.txt" =
      .mk "root" (some [.mk "x" (some [.mk "y.txt" none])]) :=
  fileTreeAdd_insertion_amended.2.2.1 "root" "x" "y.txt" [] [] (by decide) rfl

/-- C8 (counterexample): for remote path r/a.txt under sample directory r
and destination dst, `downloadSampleFiles` writes to dst/a.txt (re-rooted)
but `buildFileTree` writes to dst/r/a.txt — the full remote path joined
under dst, not the re-rooted relative path. -/
theorem destPath_not_rerooted_cex :
    downloadDestPath "dst" "r" "r/a.txt" = "dst/a.txt" ∧
    buildFileTreeDestPath "dst" "r/a.txt" = "dst/r/a.txt" ∧
    buildFileTreeDestPath "dst" "r/a.txt" ≠
      downloadDestPath "dst" "r" "r/a.txt" := by
  refine ⟨rfl, rfl, by decide⟩

/-- C8 (amended): whenever the remote path consists of the sample
subdirectory segments followed by a remainder of ordinary segments,
`downloadSampleFiles` writes to the local destination joined with just
the remainder — the re-rooting the claim describes, stated both through
the relative path it computes and segmentwise — while `buildFileTree`
writes to the local destination joined with the full remote path,
keeping the subdirectory segments in front of the remainder (no
re-rooting). -/
theorem destPath_amended (dst folder sample : String) (fseg r : List String)
    (h1 : pathSegments (folder ++ "/") = fseg)
    (h2 : pathSegments sample = fseg ++ r)
    (h3 : ∀ x ∈ r, x ≠ "" ∧ x ≠ "." ∧ ('/' : Char) ∉ x.data) :
    relativeModel (folder ++ "/") sample = String.intercalate "/" r ∧
    downloadDestPath dst folder sample =
      String.intercalate "/" (pathSegments dst ++ r) ∧
    buildFileTreeDestPath dst sample =
      String.intercalate "/" (pathSegments dst ++ (fseg ++ r)) := by
  have hrel : relativeModel (folder ++ "/") sample = String.intercalate "/" r := by
    simp only [relativeModel, h1, h2, commonLen_self_append]
    rw [Nat.sub_self, List.replicate_zero, List.nil_append, List.drop_left]
  refine ⟨hrel, ?_, ?_⟩
  · simp only [downloadDestPath, joinModel, hrel, pathSegments_intercalate r h3]
  · simp only [buildFileTreeDestPath, joinModel, h2]

/-- C8 (witness): the amended theorem at dst, folder r, sample r/a.txt:
the download destination carries only the remainder a.txt under dst, the
tree-building write destination keeps the r segment. -/
theorem destPath_amended_witness :
    relativeModel ("r" ++ "/") "r/a.txt" = String.intercalate "/" ["a.txt"] ∧
    downloadDestPath "dst" "r" "r/a.txt" =
      String.intercalate "/" (pathSegments "dst" ++ ["a.txt"]) ∧
    buildFileTreeDestPath "dst" "r/a.txt" =
      String.intercalate "/" (pathSegments "dst" ++ (["r"] ++ ["a.txt"])) :=
  destPath_amended "dst" "r" "r/a.txt" ["r"] ["a.txt"] rfl rfl (by decide)

/-! ## getSampleFileInfo (util.ts lines 70-88) -/

/-- C10 (counterexample): a response body that lacks the tree array but
still carries a sha (here abc) makes `getSampleFileInfo` resolve with
`samplePaths = undefined` — yet the revision segment of `fileUrlPrefix`
is abc, not the literal string "undefined" the claim asserts. -/
theorem getSampleFileInfo_sha_cex :
    (getSampleFileInfo "o" "r" "d" (some ⟨none, some "abc"⟩)).1 = none ∧
    (getSampleFileInfo "o" "r" "d" (some ⟨none, some "abc"⟩)).2 =
      "https://raw.githubusercontent.com/o/r/abc/" ∧
    (getSampleFileInfo "o" "r" "d" (some ⟨none, some "abc"⟩)).2 ≠
      "https://raw.githubusercontent.com/o/r/undefined/" := by
  refine ⟨rfl, rfl, by decide⟩

/-- C10 (amended): when the body lacks a tree array, `getSampleFileInfo`
resolves with `samplePaths = undefined` (not an empty list) and a
`fileUrlPrefix` whose revision segment is the rendering of the optional
sha — the literal "undefined" exactly when the sha is also absent; when
the tree array is present, `samplePaths` holds exactly the paths of
entries whose path starts with the subdirectory prefix followed by "/"
and whose type is not "tree". -/

theorem getSampleFileInfo_spec (owner repo dir : String)
    (data : Option SampleFileInfoData) :
    (data.bind SampleFileInfoData.tree = none →
      (getSampleFileInfo owner repo dir data).1 = none ∧
      (getSampleFileInfo owner repo dir data).2 =
        "https://raw.githubusercontent.com/" ++ owner ++ "/" ++ repo ++ "/" ++
          jsStr (data.bind SampleFileInfoData.sha) ++ "/") ∧
    (data.bind SampleFileInfoData.sha = none →
      (getSampleFileInfo owner repo dir data).2 =
        "https://raw.githubusercontent.com/" ++ owner ++ "/" ++ repo ++ "/" ++
          "undefined" ++ "/") ∧
    (∀ l, data.bind SampleFileInfoData.tree = some l →
      ∃ ps, (getSampleFileInfo owner repo dir data).1 = some ps ∧
        ∀ p, p ∈ ps ↔ ∃ node ∈ l, node.path = p ∧
          jsStartsWith node.path (dir ++ "/") = true ∧ node.type ≠ "tree") := by
  refine ⟨?_, ?_, ?_⟩
  · intro h
    exact ⟨by simp [getSampleFileInfo, h], rfl⟩
  · intro h
    simp [getSampleFileInfo, h, jsStr]
  · intro l hl
    refine ⟨(l.filter (fun node =>
        jsStartsWith node.path (dir ++ "/") && node.type != "tree")).map
        TreeEntry.path, by simp [getSampleFileInfo, hl], ?_⟩
    intro p
    simp only [List.mem_map, List.mem_filter]
    constructor
    · rintro ⟨node, ⟨hnl, hpred⟩, hpath⟩
      rw [Bool.and_eq_true, bne_iff_ne] at hpred
      exact ⟨node, hnl, hpath, hpred.1, hpred.2⟩
    · rintro ⟨node, hnl, hpath, hstart, htype⟩
      refine ⟨node, ⟨hnl, ?_⟩, hpath⟩
      rw [Bool.and_eq_true, bne_iff_ne]
      exact ⟨hstart, htype⟩

/-- C10 (witness): the amended theorem at a concrete listing with one
matching blob, one blob outside the subdirectory, and one tree entry. -/

theorem getSampleFileInfo_spec_witness :
    ∃ ps, (getSampleFileInfo "o" "r" "d"
        (some ⟨some [⟨"d/x.txt", "blob"⟩, ⟨"e/y.txt", "blob"⟩,
          ⟨"d/sub", "tree"⟩], some "s"⟩)).1 = some ps ∧
      ∀ p, p ∈ ps ↔ ∃ node ∈ [(⟨"d/x.txt", "blob"⟩ : TreeEntry),
          ⟨"e/y.txt", "blob"⟩, ⟨"d/sub", "tree"⟩], node.path = p ∧
        jsStartsWith node.path ("d" ++ "/") = true ∧ node.type ≠ "tree" :=
  (getSampleFileInfo_spec "o" "r" "d"
    (some ⟨some [⟨"d/x.txt", "blob"⟩, ⟨"e/y.txt", "blob"⟩,
      ⟨"d/sub", "tree"⟩], some "s"⟩)).2.2
    [⟨"d/x.txt", "blob"⟩, ⟨"e/y.txt", "blob"⟩, ⟨"d/sub", "tree"⟩] rfl

/-! ## runWithLimitedConcurrency (util.ts lines 185-210)

Two complementary embeddings of the same loop. The step system
(`LimiterStep`/`LimiterReach`) captures every interleaving of the
cooperative scheduler abstractly, for the in-flight bound. The executable
interpreter (`dispatchLC`/`joinGo`) determinizes the run by a schedule
that picks which in-flight promise settles at each suspension point
(`await Promise.race` when the queue is full, then `await Promise.all`),
for the settlement results. In both, a callback that fulfills removes its
promise from the queue in its `.then` handler, while one that rejects
re-throws in its `.catch` handler and stays in the queue, so the pending
race or join rejects with exactly that error. -/

/-- C1: for every item count, callback behaviour and limit L >= 1, in
every reachable state of `runWithLimitedConcurrency` the number of
callbacks that have started and not yet settled is at most L. -/
theorem runWithLimitedConcurrency_bound (L M : Nat) (hL : 1 ≤ L)
    (s : LimiterState) (h : LimiterReach L M s) : s.inFlight ≤ L := by
  have key : ∀ s2 : LimiterState, LimiterReach L M s2 →
      s2.inFlight ≤ L ∧ (s2.waiting = false → s2.inFlight < L) := by
    intro s2 h2
    induction h2 with
    | init => exact ⟨by show 0 ≤ L; omega, fun _ => by show 0 < L; omega⟩
    | step _hr hstep ih =>
      cases hstep with
      | dispatch p i =>
        have hi : i < L := ih.2 rfl
        constructor
        · show i + 1 ≤ L
          omega
        · intro hw
          have := of_decide_eq_false hw
          show i + 1 < L
          omega
      | settle p i w =>
        have hle : i + 1 ≤ L := ih.1
        exact ⟨by show i ≤ L; omega, fun _ => by show i < L; omega⟩
  exact (key s h).1

/-- C1 (witness): with limit 2 and 3 items, the state after one dispatch
is reachable and respects the bound. -/

theorem runWithLimitedConcurrency_bound_witness :
    (⟨2, 1, false⟩ : LimiterState).inFlight ≤ 2 :=
  runWithLimitedConcurrency_bound 2 3 (by decide) ⟨2, 1, false⟩
    (LimiterReach.step LimiterReach.init (LimiterStep.dispatch 2 0))

/-- C2: for every item list, outcome assignment, limit and schedule, the
run resolves exactly when every callback fulfills; when it rejects, it
rejects with the error of one of the rejecting invocations (the rejection
surfacing at a suspension point — the race taken at capacity or the final
join, which is where the interpreter observes settlements); and whenever
some invocation rejects, the run — including the final join, which the
totality of the interpreter shows terminating — rejects with such an
error. -/
theorem runWithLimitedConcurrency_failure {ε : Type} (items : List (Option ε))
    (limit : Nat) (sched : List Nat) :
    (runWithLimitedConcurrency items limit sched = .ok () ↔
      ∀ o ∈ items, o = none) ∧
    (∀ e, runWithLimitedConcurrency items limit sched = .error e →
      some e ∈ items) ∧
    ((∃ o ∈ items, o ≠ none) →
      ∃ e, runWithLimitedConcurrency items limit sched = .error e) := by
  refine ⟨?_, ?_, ?_⟩
  · rw [runWithLimitedConcurrency, dispatchLC_ok_iff]
    simp
  · intro e h
    rcases dispatchLC_error_mem items limit [] sched e h with h2 | h2
    · exact h2
    · simp at h2
  · rintro ⟨o, ho, hne⟩
    cases h : runWithLimitedConcurrency items limit sched with
    | ok u =>
      cases u
      rw [runWithLimitedConcurrency, dispatchLC_ok_iff] at h
      exact absurd (h.1 o ho) hne
    | error e => exact ⟨e, rfl⟩

/-- C2 (witness): with items [fulfill, reject 3], limit 1 and the empty
schedule, some rejection surfaces. -/

theorem runWithLimitedConcurrency_failure_witness :
    ∃ e, runWithLimitedConcurrency [none, some (3 : Nat)] 1 [] = .error e :=
  (runWithLimitedConcurrency_failure [none, some 3] 1 []).2.2 (by decide)

end TeamsFxSpec
